import Mathlib

/-!
Verification of the `purrito` CatGt wrapper (`src/purrito/catgt.py`).

The development shallowly embeds the option store, the flag serializer,
the invocation builder and the supercat codec of `CatGt_wrapper`.
Python dictionaries are modelled as insertion-ordered association lists
(`List (String × _)`) with Python's `d[k] = v` update semantics: an
existing key is overwritten in place, a new key is appended at the end.
Python's `None` is modelled as `Option.none`; scalar option values are
modelled by their `str()` rendering, so an option value is a boolean, a
list of already-stringified elements, or a scalar string.
`os.path.abspath` is modelled as the identity on already-normalized
absolute paths (its cwd-dependent behaviour on relative paths is outside
the pure model).
-/

namespace Purrito

/-- Values stored in the wrapper's `options` dict: Python booleans,
lists/tuples (elements already rendered by `str`), and other scalars
(rendered by `str`). Mirrors the `isinstance` dispatch in
`CatGt_wrapper._format_options`. -/
inductive OptValue where
  | bool (b : Bool)
  | seq (elems : List String)
  | scalar (s : String)
deriving DecidableEq, Repr

/-- The wrapper's `self.options` dict: insertion-ordered mapping from
option name to value. -/
abbrev OptionStore := List (String × OptValue)

/-- Python dict assignment `d[k] = v`: overwrite the existing entry for
the key in place (keeping its position; keys of a Python dict are
unique), otherwise append the new entry at the end. -/
def dictSet {α : Type} : List (String × α) → String → α → List (String × α)
  | [], k, v => [(k, v)]
  | e :: rest, k, v =>
    if e.1 == k then (k, v) :: rest else e :: dictSet rest k v

/-- Python dict merge `base.update(upd)` (also the semantics of a dict
literal with trailing `**kwargs`): apply `dictSet` for each updating
entry in order. -/
def dictUpdate {α : Type} (base upd : List (String × α)) : List (String × α) :=
  upd.foldl (fun acc kv => dictSet acc kv.1 kv.2) base

/-- `CatGt_wrapper._update_options`: iterate a params dict, storing every
entry whose value is not `None`. -/
def update_options (st : OptionStore) (params : List (String × Option OptValue)) :
    OptionStore :=
  params.foldl
    (fun acc kv =>
      match kv.2 with
      | none => acc
      | some v => dictSet acc kv.1 v)
    st

/-- `CatGt_wrapper.set_option` at the store level (named
`set_single_option` here because `set_option` is a Lean keyword):
`if value is not None: self.options[key] = value`. -/
def set_single_option (st : OptionStore) (key : String) (value : Option OptValue) :
    OptionStore :=
  match value with
  | none => st
  | some v => dictSet st key v

/-- `CatGt_wrapper.remove_option` at the store level:
`self.options.pop(key, None)`. Keys in a Python dict are unique, so
removing every entry with the given key matches `pop`. -/
def remove_option (st : OptionStore) (key : String) : OptionStore :=
  st.filter (fun e => e.1 != key)

/-- `CatGt_wrapper._format_options`: render each stored option, in store
order. A boolean renders as `-name` when true and disappears when
false; a list/tuple renders as `-name=` followed by the comma-joined
elements; any other value renders as `-name=value`. The underscore-to-
hyphen substitution present in a historical version is commented out in
the source, so the stored name is used verbatim. -/
def format_options : OptionStore → List String
  | [] => []
  | e :: rest =>
    (match e.2 with
      | OptValue.bool b => if b then ["-" ++ e.1] else []
      | OptValue.seq xs => ["-" ++ e.1 ++ "=" ++ String.intercalate "," xs]
      | OptValue.scalar v => ["-" ++ e.1 ++ "=" ++ v]) ++ format_options rest

/-- State of a `CatGt_wrapper` instance after `__init__`: executable
path, (absolute) base directory, run name, optional gate and trigger
indices, the `prb_fld` convenience field, and the options dict. -/
structure Config where
  catgt_path : String
  basepath : String
  run_name : String
  gate : Option Int
  trigger : Option Int
  prb_fld : Option Bool
  options : OptionStore
deriving DecidableEq, Repr

/-- `CatGt_wrapper.get_command_args`: executable, `-dir=`, `-run=`, then
`-g=`/`-t=` when gate/trigger are not `None`, then the formatted
options. -/
def get_command_args (cfg : Config) : List String :=
  [cfg.catgt_path]
    ++ ["-dir=" ++ cfg.basepath]
    ++ ["-run=" ++ cfg.run_name]
    ++ (match cfg.gate with
        | none => []
        | some g => ["-g=" ++ toString g])
    ++ (match cfg.trigger with
        | none => []
        | some t => ["-t=" ++ toString t])
    ++ format_options cfg.options

/-- `CatGt_wrapper.clear_options`: `self.options.clear()`. -/
def clear_options (cfg : Config) : Config := { cfg with options := [] }

/-- Convenience constructor for a post-`__init__` state with an empty
option store. -/
def mkConfig (exe bp rn : String) (g t : Option Int) : Config :=
  { catgt_path := exe, basepath := bp, run_name := rn, gate := g, trigger := t,
    prb_fld := none, options := [] }

/-- A concrete configuration matching the spec's worked example: any
executable path, base directory `/data/x`, run name `g0`, gate 0,
trigger 0, and an empty option store. -/
def exampleConfig : Config :=
  { catgt_path := "<exe>", basepath := "/data/x", run_name := "g0",
    gate := some 0, trigger := some 0, prb_fld := none, options := [] }

/-- Key membership in the options dict (`key in self.options`). -/
def storeHasKey (st : OptionStore) (k : String) : Bool :=
  st.any (fun e => e.1 == k)

/-- Dictionary lookup `self.options[k]` as an `Option`. -/
def storeLookup (st : OptionStore) (k : String) : Option OptValue :=
  match st.find? (fun e => e.1 == k) with
  | none => none
  | some e => some e.2

/-- Python `s.split(sep)` for a single separator character, producing the
(possibly empty) fields between separators. -/
def splitOnChar (sep : Char) : List Char → List (List Char)
  | [] => [[]]
  | c :: cs =>
    let r := splitOnChar sep cs
    if c = sep then [] :: r
    else (c :: r.headD []) :: r.tail

/-- `os.path.basename(os.path.normpath(p))`, modelled for paths built
from plain segments (no `.` or `..` components): the last nonempty
`/`-separated segment, or the empty string when there is none. -/
def trailingSegment (p : String) : String :=
  (((splitOnChar '/' p.data).filter (fun seg => !seg.isEmpty)).getLastD []).asString

/-- Python `s.split(sep)[0]` for a nonempty separator: the characters
before the first occurrence of `sep`, or all of `s` when `sep` does not
occur. -/
def takeUntilSub (sep : List Char) : List Char → List Char
  | [] => []
  | c :: cs => if sep.isPrefixOf (c :: cs) then [] else c :: takeUntilSub sep cs

/-- Whether `sep` occurs as a contiguous substring. -/
def hasSub (sep : List Char) : List Char → Bool
  | [] => sep.isEmpty
  | c :: cs => sep.isPrefixOf (c :: cs) || hasSub sep cs

/-- The constructor's run-name fallback:
`os.path.basename(os.path.normpath(basepath)).split("_g0")[0]`. -/
def deriveRunName (basepath : String) : String :=
  (takeUntilSub "_g0".data (trailingSegment basepath).data).asString

/-- Errors raised by `CatGt_wrapper.__init__` (Python `ValueError`s). -/
inductive InitError where
  | emptyCatgtPath
  | emptyBasepath
deriving DecidableEq, Repr

/-- The constructor signature's default for `gate` (`gate=0`). -/
def defaultGate : Option Int := some 0

/-- The constructor signature's default for `trigger` (`trigger=0`). -/
def defaultTrigger : Option Int := some 0

/-- `CatGt_wrapper.__init__`: rejects an empty executable path or base
path, derives the run name from the base path when absent, stores gate,
trigger and `prb_fld`, and feeds constructor `kwargs` through
`_update_options` into a fresh options dict. `os.path.abspath` is
modelled as the identity (see the file comment). -/
def CatGt_init (catgt_path basepath : String) (run_name : Option String)
    (gate trigger : Option Int) (prb_fld : Option Bool)
    (kwargs : List (String × Option OptValue)) : Except InitError Config :=
  if catgt_path = "" then .error .emptyCatgtPath
  else if basepath = "" then .error .emptyBasepath
  else .ok
    { catgt_path := catgt_path
      basepath := basepath
      run_name :=
        match run_name with
        | none => deriveRunName basepath
        | some r => r
      gate := gate
      trigger := trigger
      prb_fld := prb_fld
      options := update_options [] kwargs }

/-- `get_command_args` as a method on the instance state: the Python
body contains no assignment to `self`, so the receiver comes back
unchanged next to the produced argument list. -/
def get_command_argsM (cfg : Config) : List String × Config :=
  (get_command_args cfg, cfg)

/-- Shared body of the stage setters: build a params dict and run it
through `_update_options`, returning the same instance (`return self`). -/
def cfg_update (cfg : Config) (params : List (String × Option OptValue)) : Config :=
  { cfg with options := update_options cfg.options params }

/-- `CatGt_wrapper.set_input`: named params `prb`, `prb_fld`, `t`,
`t_cat` merged with `**kwargs` (kwargs win on duplicate names, dict
literal semantics), then `_update_options`. -/
def set_input (cfg : Config) (prb prb_fld t t_cat : Option OptValue)
    (kwargs : List (String × Option OptValue)) : Config :=
  cfg_update cfg
    (dictUpdate [("prb", prb), ("prb_fld", prb_fld), ("t", t), ("t_cat", t_cat)] kwargs)

/-- A Python `NameError` raised while evaluating a function body. -/
inductive PyError where
  | nameError (name : String)
deriving DecidableEq, Repr

/-- `CatGt_wrapper.set_filters`: the body builds
`params = {'ap': ap, 'lf': lf, 'ni': ni, ...}`, but `ap`, `lf` and `ni`
are not parameters of `set_filters` (they live on `set_streams`) and are
bound nowhere in the function scope, so evaluating the dict literal
raises `NameError: name 'ap' is not defined` on every call, before any
option is written. The embedding therefore returns that error
unconditionally. -/
def set_filters (cfg : Config)
    (loccar gblcar gfix tshift apfilter lffilter : Option OptValue)
    (kwargs : List (String × Option OptValue)) : Except PyError Config :=
  .error (PyError.nameError "ap")

/-- `CatGt_wrapper.set_car_options`: named params `gblcar`, `loccar`,
`loccar_um`, `gbldmx`; this setter accepts no `**kwargs`. -/
def set_car_options (cfg : Config) (gblcar loccar loccar_um gbldmx : Option OptValue) :
    Config :=
  cfg_update cfg
    [("gblcar", gblcar), ("loccar", loccar), ("loccar_um", loccar_um),
     ("gbldmx", gbldmx)]

/-- `CatGt_wrapper.set_extraction`: named params `xa`, `xd`, `xia`,
`xid` merged with `**kwargs`. -/
def set_extraction (cfg : Config) (xa xd xia xid : Option OptValue)
    (kwargs : List (String × Option OptValue)) : Config :=
  cfg_update cfg
    (dictUpdate [("xa", xa), ("xd", xd), ("xia", xia), ("xid", xid)] kwargs)

/-- `CatGt_wrapper.set_output`: named params `dest`, `out_prb_fld`,
`gbldmx` merged with `**kwargs`. -/
def set_output (cfg : Config) (dest out_prb_fld gbldmx : Option OptValue)
    (kwargs : List (String × Option OptValue)) : Config :=
  cfg_update cfg
    (dictUpdate [("dest", dest), ("out_prb_fld", out_prb_fld), ("gbldmx", gbldmx)]
      kwargs)

/-- `CatGt_wrapper.set_option` on the instance: store a single entry
unless the value is `None`, returning the same instance. -/
def cfg_set_option (cfg : Config) (key : String) (value : Option OptValue) : Config :=
  { cfg with options := set_single_option cfg.options key value }

/-- `CatGt_wrapper.set_options`: feed a whole dict through
`_update_options` (the `TypeError` branch for a non-dict argument is
ruled out by typing). -/
def set_options (cfg : Config) (opts : List (String × Option OptValue)) : Config :=
  cfg_update cfg opts

/-- One element of the `runs` argument of `set_supercat`: a Python dict
that may or may not carry the `dir` and `run_ga` keys (`none` models an
absent key). -/
structure RunEntry where
  dir : Option String
  run_ga : Option String
deriving DecidableEq, Repr

/-- Errors raised by `set_supercat` (Python `ValueError`s with the
corresponding messages). -/
inductive SupercatErr where
  | emptyRuns
  | missingDest
  | missingKeys (i : Nat)
deriving DecidableEq, Repr

/-- The validation loop of `set_supercat`: the first entry lacking a
`dir` or `run_ga` key fails with its index; otherwise the field pairs
are collected in order. -/
def validateRuns : List RunEntry → Nat → Except SupercatErr (List (String × String))
  | [], _ => .ok []
  | r :: rs, i =>
    match r.dir, r.run_ga with
    | some d, some g =>
      match validateRuns rs (i + 1) with
      | .error e => .error e
      | .ok pairs => .ok ((d, g) :: pairs)
    | _, _ => .error (.missingKeys i)

/-- The supercat encoding
`''.join(f"{...}" for run in runs)`: one `\x7bdir,run_ga\x7d` group per
run, in order, with no separator. -/
def supercatString (pairs : List (String × String)) : String :=
  String.join (pairs.map (fun pr => "\x7b" ++ pr.1 ++ "," ++ pr.2 ++ "\x7d"))

/-- `CatGt_wrapper.set_supercat`: reject an empty runs list, then a
missing (or empty, since `if not dest`) destination, then validate each
entry; on success store `supercat` and `dest`, the two optional
presence flags, and any extra `kwargs` (merged with dict-update
semantics, as in the source's `params.update(kwargs)`). -/
def set_supercat (cfg : Config) (runs : List RunEntry)
    (trim_edges skip_ni_ob_bin : Bool) (dest : Option String)
    (kwargs : List (String × Option OptValue)) : Except SupercatErr Config :=
  if runs.isEmpty then .error .emptyRuns
  else if (dest.getD "") = "" then .error .missingDest
  else
    match validateRuns runs 0 with
    | .error e => .error e
    | .ok pairs =>
      let params : List (String × Option OptValue) :=
        [("supercat", some (OptValue.scalar (supercatString pairs))),
         ("dest", some (OptValue.scalar (dest.getD "")))]
        ++ (if trim_edges then [("supercat_trim_edges", some (OptValue.bool true))]
            else [])
        ++ (if skip_ni_ob_bin then
              [("supercat_skip_ni_ob_bin", some (OptValue.bool true))]
            else [])
      .ok (cfg_update cfg (dictUpdate params kwargs))

/-- The dict returned by `parse_fyi_supercat_element`. -/
structure RunDescriptor where
  dir : String
  run_ga : String
deriving DecidableEq, Repr

/-- The filesystem visible to `parse_fyi_supercat_element`, as a mapping
from path to file content. -/
abbrev FileSystem := List (String × String)

/-- Content of the file at a path, when it exists. -/
def lookupFile (fs : FileSystem) (p : String) : Option String :=
  match fs.find? (fun e => e.1 == p) with
  | none => none
  | some e => some e.2

/-- Errors raised by `parse_fyi_supercat_element`:
`FileNotFoundError` and the `ValueError` for a missing pattern. -/
inductive FyiError where
  | notFound (path : String)
  | noMatch (path : String)
deriving DecidableEq, Repr

/-- The literal head of the searched pattern,
`supercat_element=\x7b`. -/
def patChars : List Char := "supercat_element=\x7b".data

/-- One attempted match of the regex
`supercat_element=\\\x7b([^,]+),([^\x7d]+)\\\x7d` at the start of `cs`.
After the literal head, `[^,]+` greedily takes the maximal run of
non-comma characters and the following character must then be the
comma itself (so `dropWhile` stopping on a nonempty rest guarantees the
comma); `[^\x7d]+` likewise takes the maximal run of non-brace
characters, which must be followed by the closing brace. Both groups
must be nonempty. -/
def tryMatchAt (cs : List Char) : Option (String × String) :=
  if patChars.isPrefixOf cs then
    if ((cs.drop patChars.length).takeWhile (fun c => c != ',')).isEmpty then none
    else
      match (cs.drop patChars.length).dropWhile (fun c => c != ',') with
      | [] => none
      | _ :: rest3 =>
        if (rest3.takeWhile (fun c => c != '\x7d')).isEmpty then none
        else
          match rest3.dropWhile (fun c => c != '\x7d') with
          | [] => none
          | _ :: _ =>
            some (((cs.drop patChars.length).takeWhile (fun c => c != ',')).asString,
                  (rest3.takeWhile (fun c => c != '\x7d')).asString)
  else none

/-- `re.search` over the text: try a match at every position, left to
right, returning the first success. -/
def searchSupercat : List Char → Option (String × String)
  | [] => none
  | c :: cs =>
    match tryMatchAt (c :: cs) with
    | some r => some r
    | none => searchSupercat cs

/-- `CatGt_wrapper.parse_fyi_supercat_element`: missing file raises
`FileNotFoundError`; a file whose content has no pattern occurrence
raises `ValueError`; otherwise the two captured groups come back as the
`dir` and `run_ga` fields. -/
def parse_fyi_supercat_element (fs : FileSystem) (p : String) :
    Except FyiError RunDescriptor :=
  match lookupFile fs p with
  | none => .error (.notFound p)
  | some content =>
    match searchSupercat content.data with
    | none => .error (.noMatch p)
    | some dg => .ok { dir := dg.1, run_ga := dg.2 }

/-- Written from the spec's description of the sidecar pattern, for
comparison with the implementation: `d` and `g` witness an occurrence
of `supercat_element=\x7bd,g\x7d` inside `cs` where `d` is nonempty and
comma-free and `g` is nonempty and free of closing braces. -/
def SpecMatch (cs d g : List Char) : Prop :=
  d ≠ [] ∧ g ≠ [] ∧ (∀ c ∈ d, c ≠ ',') ∧ (∀ c ∈ g, c ≠ '\x7d') ∧
    (patChars ++ d ++ [','] ++ g ++ ['\x7d']) <:+: cs

/-- Written from the spec: some pattern occurrence exists in the text. -/
def MatchExists (cs : List Char) : Prop := ∃ d g, SpecMatch cs d g

/-- C1: `get_command_args` is the executable path, then `-dir=<basepath>`,
then `-run=<run_name>`, then `-g=<gate>` iff gate is present, then
`-t=<trigger>` iff trigger is present, then the serialized options in
store order; on the spec's worked example it is exactly
`["<exe>", "-dir=/data/x", "-run=g0", "-g=0", "-t=0"]`, with no extra
or empty strings. -/
theorem get_command_args_shape :
    (∀ cfg : Config, get_command_args cfg =
      [cfg.catgt_path, "-dir=" ++ cfg.basepath, "-run=" ++ cfg.run_name]
        ++ (match cfg.gate with
            | none => []
            | some g => ["-g=" ++ toString g])
        ++ (match cfg.trigger with
            | none => []
            | some t => ["-t=" ++ toString t])
        ++ format_options cfg.options)
    ∧ get_command_args exampleConfig
        = ["<exe>", "-dir=/data/x", "-run=g0", "-g=0", "-t=0"]
    ∧ (∀ s ∈ get_command_args exampleConfig, s ≠ "") := by
  refine ⟨fun cfg => by simp [get_command_args], by decide, by decide⟩

/-- C2: the serializer renders each entry by its value's type, using the
stored option name verbatim: boolean true renders exactly as `-name`
(no `=`), boolean false emits nothing, a sequence renders as
`-name=` followed by the comma-joined elements in order with no
trailing comma, and a scalar renders as `-name=value`. -/
theorem format_options_rendering :
    (∀ (name : String) (rest : OptionStore),
      format_options ((name, OptValue.bool false) :: rest) = format_options rest)
    ∧ (∀ (name : String) (rest : OptionStore),
      format_options ((name, OptValue.bool true) :: rest)
        = ("-" ++ name) :: format_options rest)
    ∧ (∀ (name : String) (xs : List String) (rest : OptionStore),
      format_options ((name, OptValue.seq xs) :: rest)
        = ("-" ++ name ++ "=" ++ String.intercalate "," xs) :: format_options rest)
    ∧ (∀ (name v : String) (rest : OptionStore),
      format_options ((name, OptValue.scalar v) :: rest)
        = ("-" ++ name ++ "=" ++ v) :: format_options rest)
    ∧ (∀ (name v1 v2 : String) (rest : OptionStore),
      format_options ((name, OptValue.seq [v1, v2]) :: rest)
        = ("-" ++ name ++ "=" ++ v1 ++ "," ++ v2) :: format_options rest) := by
  refine ⟨fun name rest => rfl, fun name rest => rfl, fun name xs rest => rfl,
    fun name v rest => rfl, fun name v1 v2 rest => ?_⟩
  simp [format_options, String.intercalate, String.intercalate.go,
    String.append_assoc]

theorem storeLookup_dictSet_self (st : OptionStore) (k : String) (v : OptValue) :
    storeLookup (dictSet st k v) k = some v := by
  induction st with
  | nil => simp [dictSet, storeLookup, List.find?]
  | cons e rest ih =>
    by_cases he : e.1 = k
    · simp [dictSet, storeLookup, List.find?, he]
    · have hb : (e.1 == k) = false := beq_eq_false_iff_ne.mpr he
      simpa [dictSet, storeLookup, List.find?, hb] using ih

theorem storeLookup_dictSet_ne (st : OptionStore) (k k2 : String) (v : OptValue)
    (h : k2 ≠ k) : storeLookup (dictSet st k v) k2 = storeLookup st k2 := by
  have hkk2 : (k == k2) = false := beq_eq_false_iff_ne.mpr (Ne.symm h)
  induction st with
  | nil => simp [dictSet, storeLookup, List.find?, hkk2]
  | cons e rest ih =>
    by_cases he : e.1 = k
    · have hbe : (e.1 == k2) = false := by rw [he]; exact hkk2
      have hbk : (e.1 == k) = true := beq_iff_eq.mpr he
      simp [dictSet, storeLookup, List.find?, hbk, hbe, hkk2]
    · have hb : (e.1 == k) = false := beq_eq_false_iff_ne.mpr he
      by_cases he2 : e.1 = k2
      · have hb2t : (e.1 == k2) = true := beq_iff_eq.mpr he2
        simp [dictSet, storeLookup, List.find?, hb, hb2t]
      · have hb2 : (e.1 == k2) = false := beq_eq_false_iff_ne.mpr he2
        simpa [dictSet, storeLookup, List.find?, hb, hb2] using ih

theorem storeLookup_update_options_of_disjoint
    (params : List (String × Option OptValue)) :
    ∀ (st : OptionStore) (k : String), (∀ e ∈ params, e.1 ≠ k) →
      storeLookup (update_options st params) k = storeLookup st k := by
  induction params with
  | nil => intro st k _; rfl
  | cons kv params ih =>
    intro st k h
    have hkv : kv.1 ≠ k := h kv (by simp)
    have hrest : ∀ e ∈ params, e.1 ≠ k := fun e he => h e (by simp [he])
    cases hv : kv.2 with
    | none =>
      simpa [update_options, hv] using ih st k hrest
    | some v =>
      have step : update_options st (kv :: params)
          = update_options (dictSet st kv.1 v) params := by
        simp [update_options, hv]
      rw [step, ih (dictSet st kv.1 v) k hrest,
        storeLookup_dictSet_ne st kv.1 k v (fun hk => hkv hk.symm)]

/-- C9: serialization is side-effect-free and idempotent: the stateful
reading of `get_command_args` hands back the receiver unchanged, and a
second serialization of that receiver produces the same sequence. -/
theorem serialize_pure_idempotent :
    ∀ cfg : Config,
      (get_command_argsM cfg).2 = cfg ∧
      (get_command_argsM ((get_command_argsM cfg).2)).1 = (get_command_argsM cfg).1 :=
  fun _ => ⟨rfl, rfl⟩

/-- C8: the option store never holds the null sentinel: setting a key to
`None` is a no-op (both through `set_option` and through a params dict
fed to `_update_options`), removing an absent key is a no-op, and after
`clear_options` the built command holds only the required
positional/indexed flags. -/
theorem store_null_sentinel_invariant :
    (∀ (st : OptionStore) (k : String), set_single_option st k none = st)
    ∧ (∀ (st : OptionStore) (k : String) (params : List (String × Option OptValue)),
        update_options st ((k, none) :: params) = update_options st params)
    ∧ (∀ (st : OptionStore) (k : String),
        storeHasKey st k = false → remove_option st k = st)
    ∧ (∀ cfg : Config, get_command_args (clear_options cfg) =
        [cfg.catgt_path, "-dir=" ++ cfg.basepath, "-run=" ++ cfg.run_name]
          ++ (match cfg.gate with
              | none => []
              | some g => ["-g=" ++ toString g])
          ++ (match cfg.trigger with
              | none => []
              | some t => ["-t=" ++ toString t])) := by
  refine ⟨fun st k => rfl, fun st k params => rfl, fun st k h => ?_, fun cfg => ?_⟩
  · rw [remove_option, List.filter_eq_self]
    intro e he
    simp only [storeHasKey, List.any_eq_false] at h
    simpa using h e he
  · simp [clear_options, get_command_args, format_options]

theorem store_null_sentinel_invariant_witness :
    remove_option [("ap", OptValue.bool true)] "lf" = [("ap", OptValue.bool true)] :=
  store_null_sentinel_invariant.2.2.1 [("ap", OptValue.bool true)] "lf" (by decide)

/-- C10: when the caller supplies neither index, gate and trigger default
to 0 (not to the absent sentinel), so the built vector carries `-g=0`
and `-t=0`; they are omitted exactly when the caller explicitly passes
`None`. -/
theorem gate_trigger_default_zero :
    defaultGate = some 0 ∧ defaultTrigger = some 0
    ∧ (∀ exe bp : String, exe ≠ "" → bp ≠ "" →
        ∃ cfg, CatGt_init exe bp none defaultGate defaultTrigger none [] = .ok cfg
          ∧ cfg.gate = some 0 ∧ cfg.trigger = some 0
          ∧ "-g=0" ∈ get_command_args cfg ∧ "-t=0" ∈ get_command_args cfg)
    ∧ (∀ exe bp : String, exe ≠ "" → bp ≠ "" →
        ∃ cfg, CatGt_init exe bp none none none none [] = .ok cfg
          ∧ get_command_args cfg = [exe, "-dir=" ++ bp, "-run=" ++ deriveRunName bp]) := by
  refine ⟨rfl, rfl, fun exe bp h1 h2 => ?_, fun exe bp h1 h2 => ?_⟩
  · refine ⟨mkConfig exe bp (deriveRunName bp) (some 0) (some 0), ?_, rfl, rfl, ?_, ?_⟩
    · simp [CatGt_init, defaultGate, defaultTrigger, h1, h2, update_options, mkConfig]
    · have hg : ("-g=" ++ toString (0 : Int)) = "-g=0" := by decide
      simp [get_command_args, format_options, mkConfig, hg]
    · have ht : ("-t=" ++ toString (0 : Int)) = "-t=0" := by decide
      simp [get_command_args, format_options, mkConfig, ht]
  · refine ⟨mkConfig exe bp (deriveRunName bp) none none, ?_, ?_⟩
    · simp [CatGt_init, h1, h2, update_options, mkConfig]
    · simp [get_command_args, format_options, mkConfig]

theorem gate_trigger_default_zero_witness :
    (∃ cfg, CatGt_init "CatGt" "/data/x" none defaultGate defaultTrigger none [] = .ok cfg
      ∧ cfg.gate = some 0 ∧ cfg.trigger = some 0
      ∧ "-g=0" ∈ get_command_args cfg ∧ "-t=0" ∈ get_command_args cfg)
    ∧ (∃ cfg, CatGt_init "CatGt" "/data/x" none none none none [] = .ok cfg
      ∧ get_command_args cfg = ["CatGt", "-dir=" ++ "/data/x", "-run=" ++ deriveRunName "/data/x"]) :=
  ⟨gate_trigger_default_zero.2.2.1 "CatGt" "/data/x" (by decide) (by decide),
   gate_trigger_default_zero.2.2.2 "CatGt" "/data/x" (by decide) (by decide)⟩

/-- C6 (code bug): every call of `set_filters` raises
`NameError: name 'ap' is not defined`, because the body's params dict
references `ap`, `lf`, `ni`, which are no longer parameters of the
method (its own docstring still documents them and its examples call
`set_filters(ap=True, ...)`); no option is forwarded and `self` is
never returned. -/
theorem set_filters_raises_name_error :
    ∀ (cfg : Config) (loccar gblcar gfix tshift apfilter lffilter : Option OptValue)
      (kwargs : List (String × Option OptValue)),
      set_filters cfg loccar gblcar gfix tshift apfilter lffilter kwargs
        = .error (PyError.nameError "ap") :=
  fun _ _ _ _ _ _ _ _ => rfl

theorem isPrefixOf_true_iff {l1 l2 : List Char} :
    l1.isPrefixOf l2 = true ↔ l1 <+: l2 :=
  List.isPrefixOf_iff_prefix

theorem hasSub_iff (sep : List Char) :
    ∀ seg, hasSub sep seg = true ↔ sep <:+: seg := by
  intro seg
  induction seg with
  | nil =>
    simp [hasSub, List.isEmpty_iff]
  | cons c cs ih =>
    rw [hasSub, Bool.or_eq_true, isPrefixOf_true_iff, ih, List.infix_cons_iff]

theorem takeUntil_eq_self_of_not_hasSub (sep : List Char) :
    ∀ seg, hasSub sep seg = false → takeUntilSub sep seg = seg := by
  intro seg
  induction seg with
  | nil => intro _; rfl
  | cons c cs ih =>
    intro h
    rw [hasSub, Bool.or_eq_false_iff] at h
    rw [takeUntilSub, if_neg (by simp [h.1]), ih h.2]

theorem takeUntil_decomp (sep : List Char) (hsep : sep ≠ []) :
    ∀ seg, hasSub sep seg = true →
      ∃ tail, takeUntilSub sep seg ++ sep ++ tail = seg := by
  intro seg
  induction seg with
  | nil =>
    intro h
    rw [hasSub, List.isEmpty_iff] at h
    exact absurd h hsep
  | cons c cs ih =>
    intro h
    rw [hasSub, Bool.or_eq_true] at h
    by_cases hp : sep.isPrefixOf (c :: cs) = true
    · obtain ⟨tail, htail⟩ := isPrefixOf_true_iff.mp hp
      exact ⟨tail, by simp [takeUntilSub, hp, htail]⟩
    · have h2 : hasSub sep cs = true := by
        rcases h with h | h
        · exact absurd h hp
        · exact h
      obtain ⟨tail, htail⟩ := ih h2
      refine ⟨tail, ?_⟩
      rw [takeUntilSub, if_neg hp]
      simpa using htail

theorem takeUntil_minimal (sep : List Char) :
    ∀ seg r2 t2, r2 ++ sep ++ t2 = seg →
      (takeUntilSub sep seg).length ≤ r2.length := by
  intro seg
  induction seg with
  | nil => intro r2 t2 _; simp [takeUntilSub]
  | cons c cs ih =>
    intro r2 t2 heq
    by_cases hp : sep.isPrefixOf (c :: cs) = true
    · simp [takeUntilSub, hp]
    · cases r2 with
      | nil =>
        exfalso
        apply hp
        rw [isPrefixOf_true_iff]
        exact ⟨t2, by simpa using heq⟩
      | cons a r2t =>
        have ha : a = c := by
          have := congrArg (fun l => l.head?) heq
          simpa using this
        have htl : r2t ++ sep ++ t2 = cs := by
          have := congrArg (fun l => l.tail) heq
          simpa using this
        rw [takeUntilSub, if_neg hp]
        simpa using ih r2t t2 htl

/-- C7 (counterexample): a base directory whose trailing segment carries
the gate suffix `_g3` keeps that suffix: the derived run name is
`exp1_g3`, not the `exp1` the claim's general `_g<digits>` stripping
rule would give. -/
theorem derive_run_name_counterexample :
    deriveRunName "/data/exp1_g3" = "exp1_g3"
    ∧ deriveRunName "/data/exp1_g3" ≠ "exp1" := by
  constructor
  · decide
  · decide

/-- C7 (amended): when `run_name` is not supplied it is the trailing
path segment of the base directory truncated at the first occurrence of
the literal substring `_g0`: the whole segment when `_g0` does not
occur, otherwise the part before the leftmost occurrence. Only the
literal `_g0` is recognized, so a `_g<digits>` suffix with a nonzero
digit is kept: segment `exp1_g0` yields `exp1`, segment `exp1_g3`
yields `exp1_g3`. -/
theorem derive_run_name_amended :
    (∀ bp : String, deriveRunName bp
      = (takeUntilSub "_g0".data (trailingSegment bp).data).asString)
    ∧ (∀ seg : List Char, hasSub "_g0".data seg = true ↔ "_g0".data <:+: seg)
    ∧ (∀ seg : List Char, hasSub "_g0".data seg = false →
        takeUntilSub "_g0".data seg = seg)
    ∧ (∀ seg : List Char, hasSub "_g0".data seg = true →
        ∃ tail, takeUntilSub "_g0".data seg ++ "_g0".data ++ tail = seg)
    ∧ (∀ (seg r2 t2 : List Char), r2 ++ "_g0".data ++ t2 = seg →
        (takeUntilSub "_g0".data seg).length ≤ r2.length)
    ∧ deriveRunName "/data/exp1_g0" = "exp1"
    ∧ deriveRunName "/data/exp1_g3" = "exp1_g3" := by
  refine ⟨fun bp => rfl, hasSub_iff "_g0".data,
    takeUntil_eq_self_of_not_hasSub "_g0".data,
    takeUntil_decomp "_g0".data (by decide),
    takeUntil_minimal "_g0".data, by decide, by decide⟩

theorem derive_run_name_amended_witness :
    takeUntilSub "_g0".data "exp1_g3".data = "exp1_g3".data
    ∧ (∃ tail, takeUntilSub "_g0".data "exp1_g0".data ++ "_g0".data ++ tail
        = "exp1_g0".data)
    ∧ (takeUntilSub "_g0".data "exp1_g0_g0".data).length ≤ ("exp1".data).length :=
  ⟨derive_run_name_amended.2.2.1 "exp1_g3".data (by decide),
   derive_run_name_amended.2.2.2.1 "exp1_g0".data (by decide),
   derive_run_name_amended.2.2.2.2.1 "exp1_g0_g0".data "exp1".data "_g0".data (by decide)⟩

theorem validateRuns_map_ok (pairs : List (String × String)) :
    ∀ i, validateRuns (pairs.map (fun pr => { dir := some pr.1, run_ga := some pr.2 })) i
      = .ok pairs := by
  induction pairs with
  | nil => intro i; rfl
  | cons pr rest ih => intro i; simp [validateRuns, ih (i + 1)]

theorem validateRuns_ok_iff :
    ∀ (runs : List RunEntry) (i : Nat),
      (∃ pairs, validateRuns runs i = .ok pairs) ↔
        ∀ r ∈ runs, r.dir ≠ none ∧ r.run_ga ≠ none := by
  intro runs
  induction runs with
  | nil => intro i; simp [validateRuns]
  | cons r rest ih =>
    intro i
    rcases r with ⟨rd, rg⟩
    cases rd with
    | none => simp [validateRuns]
    | some d =>
      cases rg with
      | none => simp [validateRuns]
      | some g =>
        constructor
        · rintro ⟨pairs, hp⟩
          rw [validateRuns] at hp
          intro r2 hr2
          rcases List.mem_cons.mp hr2 with rfl | hm
          · simp
          · rcases hrec : validateRuns rest (i + 1) with e | tailPairs
            · rw [hrec] at hp; exact absurd hp (by simp)
            · exact ((ih (i + 1)).mp ⟨tailPairs, hrec⟩) r2 hm
        · intro hall
          obtain ⟨tailPairs, hrec⟩ := (ih (i + 1)).mpr
            (fun r2 hr2 => hall r2 (List.mem_cons_of_mem _ hr2))
          exact ⟨(d, g) :: tailPairs, by rw [validateRuns, hrec]⟩

theorem validateRuns_error_ge :
    ∀ (runs : List RunEntry) (i j : Nat),
      validateRuns runs i = .error (.missingKeys j) → i ≤ j := by
  intro runs
  induction runs with
  | nil => intro i j h; exact absurd h (by simp [validateRuns])
  | cons r rest ih =>
    intro i j h
    rcases r with ⟨rd, rg⟩
    cases rd with
    | none =>
      rw [validateRuns] at h
      cases h
      exact Nat.le_refl _
    | some d =>
      cases rg with
      | none =>
        rw [validateRuns] at h
        cases h
        exact Nat.le_refl _
      | some g =>
        rw [validateRuns] at h
        rcases hrec : validateRuns rest (i + 1) with e | tailPairs
        · rw [hrec] at h
          cases h
          exact Nat.le_of_succ_le (ih (i + 1) j hrec)
        · rw [hrec] at h
          exact absurd h (by simp)

theorem validateRuns_missingKeys_get :
    ∀ (runs : List RunEntry) (i j : Nat),
      validateRuns runs i = .error (.missingKeys j) →
        ∃ r, runs.get? (j - i) = some r ∧ (r.dir = none ∨ r.run_ga = none) := by
  intro runs
  induction runs with
  | nil => intro i j h; exact absurd h (by simp [validateRuns])
  | cons r rest ih =>
    intro i j h
    rcases hr : r with ⟨rd, rg⟩
    cases rd with
    | none =>
      rw [hr, validateRuns] at h
      cases h
      exact ⟨r, by simp [hr], by simp [hr]⟩
    | some d =>
      cases rg with
      | none =>
        rw [hr, validateRuns] at h
        cases h
        exact ⟨r, by simp [hr], by simp [hr]⟩
      | some g =>
        rw [hr, validateRuns] at h
        rcases hrec : validateRuns rest (i + 1) with e | tailPairs
        · rw [hrec] at h
          have he : e = .missingKeys j := by
            cases h
            rfl
          rw [he] at hrec
          obtain ⟨r2, hget, hbad⟩ := ih (i + 1) j hrec
          have hij : i + 1 ≤ j := validateRuns_error_ge rest (i + 1) j hrec
          refine ⟨r2, ?_, hbad⟩
          have hsub : j - i = (j - (i + 1)) + 1 := by omega
          rw [hsub]
          simpa using hget
        · rw [hrec] at h
          exact absurd h (by simp)

theorem validateRuns_missingKeys_first :
    ∀ (runs : List RunEntry) (i j : Nat),
      validateRuns runs i = .error (.missingKeys j) →
        ∀ m, m < j - i →
          ∃ r2, runs.get? m = some r2 ∧ r2.dir ≠ none ∧ r2.run_ga ≠ none := by
  intro runs
  induction runs with
  | nil => intro i j h; exact absurd h (by simp [validateRuns])
  | cons r rest ih =>
    intro i j h m hm
    rcases hr : r with ⟨rd, rg⟩
    cases rd with
    | none =>
      rw [hr, validateRuns] at h
      cases h
      exact absurd hm (by omega)
    | some d =>
      cases rg with
      | none =>
        rw [hr, validateRuns] at h
        cases h
        exact absurd hm (by omega)
      | some g =>
        rw [hr, validateRuns] at h
        rcases hrec : validateRuns rest (i + 1) with e | tailPairs
        · rw [hrec] at h
          have he : e = .missingKeys j := by
            cases h
            rfl
          rw [he] at hrec
          cases m with
          | zero =>
            exact ⟨{ dir := some d, run_ga := some g }, rfl, by simp, by simp⟩
          | succ m2 =>
            have hm2 : m2 < j - (i + 1) := by
              have hij : i + 1 ≤ j := validateRuns_error_ge rest (i + 1) j hrec
              omega
            obtain ⟨r2, hget, h1, h2⟩ := ih (i + 1) j hrec m2 hm2
            exact ⟨r2, by simpa using hget, h1, h2⟩
        · rw [hrec] at h
          exact absurd h (by simp)

theorem validateRuns_first_bad :
    ∀ (runs : List RunEntry) (i k : Nat) (r : RunEntry),
      runs.get? k = some r → (r.dir = none ∨ r.run_ga = none) →
      (∀ m, m < k → ∃ r2, runs.get? m = some r2 ∧ r2.dir ≠ none ∧ r2.run_ga ≠ none) →
      validateRuns runs i = .error (.missingKeys (i + k)) := by
  intro runs
  induction runs with
  | nil => intro i k r hget _ _; exact absurd hget (by simp)
  | cons r0 rest ih =>
    intro i k r hget hbad hmin
    cases k with
    | zero =>
      have hr0 : r0 = r := by simpa using hget
      subst hr0
      rcases r0 with ⟨rd, rg⟩
      cases rd with
      | none =>
        cases rg with
        | none => simp [validateRuns]
        | some g => simp [validateRuns]
      | some d =>
        cases rg with
        | none => simp [validateRuns]
        | some g => simp at hbad
    | succ k2 =>
      obtain ⟨r2, hget0, hd0, hg0⟩ := hmin 0 (by omega)
      have hr2 : r0 = r2 := by simpa using hget0
      rw [← hr2] at hd0 hg0
      rcases r0 with ⟨rd0, rg0⟩
      obtain ⟨d, hd⟩ := Option.ne_none_iff_exists'.mp hd0
      obtain ⟨g, hg⟩ := Option.ne_none_iff_exists'.mp hg0
      have hgetr : rest.get? k2 = some r := by simpa using hget
      have hminr : ∀ m, m < k2 →
          ∃ r3, rest.get? m = some r3 ∧ r3.dir ≠ none ∧ r3.run_ga ≠ none := by
        intro m hm2
        obtain ⟨r3, hg3, h13, h23⟩ := hmin (m + 1) (by omega)
        exact ⟨r3, by simpa using hg3, h13, h23⟩
      have hrec := ih (i + 1) k2 r hgetr hbad hminr
      have harith : i + (k2 + 1) = (i + 1) + k2 := by omega
      have hd2 : rd0 = some d := hd
      have hg2 : rg0 = some g := hg
      subst hd2
      subst hg2
      rw [harith, validateRuns, hrec]

/-- C3: for descriptor lists whose entries all carry both fields,
`set_supercat` encodes the runs as one `\x7bdir,run_ga\x7d` group per
descriptor, in input order, concatenated with no separator, and stores
the encoding under the `supercat` option key; on the spec's example the
encoding equals `\x7b/d1,r1_g0\x7d\x7b/d2,r2_g0\x7d`. -/
theorem set_supercat_encodes :
    (∀ (cfg : Config) (pairs : List (String × String)) (trim skip : Bool)
        (dst : String), pairs ≠ [] → dst ≠ "" →
      ∃ cfg2,
        set_supercat cfg
            (pairs.map (fun pr => { dir := some pr.1, run_ga := some pr.2 }))
            trim skip (some dst) [] = .ok cfg2
        ∧ storeLookup cfg2.options "supercat"
            = some (OptValue.scalar (supercatString pairs)))
    ∧ (∀ pairs : List (String × String), supercatString pairs
        = String.join (pairs.map (fun pr => "\x7b" ++ pr.1 ++ "," ++ pr.2 ++ "\x7d")))
    ∧ supercatString [("/d1", "r1_g0"), ("/d2", "r2_g0")]
        = "\x7b/d1,r1_g0\x7d\x7b/d2,r2_g0\x7d" := by
  refine ⟨?_, fun pairs => rfl, by decide⟩
  intro cfg pairs trim skip dst hne hdst
  have hempty :
      (pairs.map (fun pr => ({ dir := some pr.1, run_ga := some pr.2 } : RunEntry))).isEmpty
        = false := by
    cases pairs with
    | nil => exact absurd rfl hne
    | cons p rest => rfl
  have hval := validateRuns_map_ok pairs 0
  rw [set_supercat]
  rw [hempty]
  simp only [Option.getD, Bool.false_eq_true, if_false, if_neg hdst]
  rw [hval]
  refine ⟨_, rfl, ?_⟩
  have hstep :
      update_options cfg.options
        (dictUpdate
          ([("supercat", some (OptValue.scalar (supercatString pairs))),
            ("dest", some (OptValue.scalar dst))]
            ++ (if trim then [("supercat_trim_edges", some (OptValue.bool true))]
                else [])
            ++ (if skip then [("supercat_skip_ni_ob_bin", some (OptValue.bool true))]
                else [])) [])
      = update_options
          (dictSet cfg.options "supercat" (OptValue.scalar (supercatString pairs)))
          (("dest", some (OptValue.scalar dst))
            :: ((if trim then [("supercat_trim_edges", some (OptValue.bool true))]
                 else [])
              ++ (if skip then [("supercat_skip_ni_ob_bin", some (OptValue.bool true))]
                  else []))) := by
    rfl
  rw [cfg_update]
  simp only []
  rw [hstep, storeLookup_update_options_of_disjoint]
  · exact storeLookup_dictSet_self cfg.options "supercat" _
  · intro e he
    rcases List.mem_cons.mp he with rfl | hm
    · simp
    · rcases List.mem_append.mp hm with h1 | h2
      · cases trim with
        | false => simp at h1
        | true =>
          simp at h1
          rw [h1]
          decide
      · cases skip with
        | false => simp at h2
        | true =>
          simp at h2
          rw [h2]
          decide

theorem set_supercat_encodes_witness :
    ∃ cfg2,
      set_supercat exampleConfig
          [{ dir := some "/d1", run_ga := some "r1_g0" },
           { dir := some "/d2", run_ga := some "r2_g0" }]
          false false (some "/out") [] = .ok cfg2
      ∧ storeLookup cfg2.options "supercat"
          = some (OptValue.scalar (supercatString [("/d1", "r1_g0"), ("/d2", "r2_g0")])) :=
  set_supercat_encodes.1 exampleConfig [("/d1", "r1_g0"), ("/d2", "r2_g0")]
    false false "/out" (by decide) (by decide)

/-- C4 (counterexample): a descriptor with an empty `dir` value passes
validation — only the presence of the keys is checked — so `set_supercat`
succeeds and encodes `\x7b,r_g0\x7d` instead of raising a configuration
error. -/
theorem set_supercat_empty_dir_accepted :
    set_supercat exampleConfig [{ dir := some "", run_ga := some "r_g0" }]
        false false (some "/out") []
      = .ok { exampleConfig with options :=
          [("supercat", OptValue.scalar "\x7b,r_g0\x7d"),
           ("dest", OptValue.scalar "/out")] } := by
  rfl

/-- C4 (amended): `set_supercat` raises exactly when the runs list is
empty, when the `dest` argument is absent or empty (`if not dest`), or
when an entry lacks the `dir` or `run_ga` key — in that case the error
names the index of the first offending entry. Entries whose field
values are present but empty strings are accepted; no emptiness check
is performed on the values. -/
theorem set_supercat_error_conditions :
    (∀ (cfg : Config) (trim skip : Bool) (dst : Option String)
        (kw : List (String × Option OptValue)),
      set_supercat cfg [] trim skip dst kw = .error .emptyRuns)
    ∧ (∀ (cfg : Config) (r : RunEntry) (rs : List RunEntry) (trim skip : Bool)
        (dst : Option String) (kw : List (String × Option OptValue)),
      dst.getD "" = "" →
      set_supercat cfg (r :: rs) trim skip dst kw = .error .missingDest)
    ∧ (∀ (cfg : Config) (runs : List RunEntry) (trim skip : Bool) (dst : String)
        (kw : List (String × Option OptValue)),
      runs ≠ [] → dst ≠ "" →
      ((∃ cfg2, set_supercat cfg runs trim skip (some dst) kw = .ok cfg2) ↔
        ∀ r ∈ runs, r.dir ≠ none ∧ r.run_ga ≠ none))
    ∧ (∀ (cfg : Config) (runs : List RunEntry) (trim skip : Bool)
        (dst : Option String) (kw : List (String × Option OptValue)) (i : Nat),
      set_supercat cfg runs trim skip dst kw = .error (.missingKeys i) →
      (∃ r, runs.get? i = some r ∧ (r.dir = none ∨ r.run_ga = none))
      ∧ ∀ j, j < i →
          ∃ r2, runs.get? j = some r2 ∧ r2.dir ≠ none ∧ r2.run_ga ≠ none)
    ∧ (∀ (cfg : Config) (runs : List RunEntry) (trim skip : Bool)
        (dst : Option String) (kw : List (String × Option OptValue)) (i : Nat)
        (r : RunEntry),
      dst.getD "" ≠ "" →
      runs.get? i = some r → (r.dir = none ∨ r.run_ga = none) →
      (∀ j, j < i → ∃ r2, runs.get? j = some r2 ∧ r2.dir ≠ none ∧ r2.run_ga ≠ none) →
      set_supercat cfg runs trim skip dst kw = .error (.missingKeys i)) := by
  refine ⟨fun cfg trim skip dst kw => rfl, ?_, ?_, ?_, ?_⟩
  · intro cfg r rs trim skip dst kw hdst
    rw [set_supercat]
    simp [hdst]
  · intro cfg runs trim skip dst kw hne hdst
    have hempty : runs.isEmpty = false := by
      cases runs with
      | nil => exact absurd rfl hne
      | cons r rs => rfl
    rw [set_supercat, hempty]
    simp only [Option.getD, Bool.false_eq_true, if_false, if_neg hdst]
    constructor
    · rintro ⟨cfg2, hok⟩
      rcases hval : validateRuns runs 0 with e | pairs
      · rw [hval] at hok
        exact absurd hok (by simp)
      · exact (validateRuns_ok_iff runs 0).mp ⟨pairs, hval⟩
    · intro hall
      obtain ⟨pairs, hval⟩ := (validateRuns_ok_iff runs 0).mpr hall
      rw [hval]
      exact ⟨_, rfl⟩
  · intro cfg runs trim skip dst kw i herr
    rw [set_supercat] at herr
    rcases hempty : runs.isEmpty with _ | _
    · rw [hempty] at herr
      by_cases hdst : (dst.getD "") = ""
      · rw [if_neg (by simp), if_pos hdst] at herr
        exact absurd herr (by simp)
      · rw [if_neg (by simp), if_neg hdst] at herr
        rcases hval : validateRuns runs 0 with e | pairs
        · rw [hval] at herr
          have he : e = .missingKeys i := by
            cases herr
            rfl
          rw [he] at hval
          constructor
          · simpa using validateRuns_missingKeys_get runs 0 i hval
          · intro j hj
            exact validateRuns_missingKeys_first runs 0 i hval j (by omega)
        · rw [hval] at herr
          exact absurd herr (by simp)
    · rw [hempty] at herr
      rw [if_pos rfl] at herr
      exact absurd herr (by simp)
  · intro cfg runs trim skip dst kw i r hdst hget hbad hmin
    have hne : runs ≠ [] := by
      intro hnil
      rw [hnil] at hget
      exact absurd hget (by simp)
    have hempty : runs.isEmpty = false := by
      cases runs with
      | nil => exact absurd rfl hne
      | cons r0 rs => rfl
    rw [set_supercat, hempty]
    simp only [Bool.false_eq_true, if_false, if_neg hdst]
    have hval := validateRuns_first_bad runs 0 i r hget hbad hmin
    rw [Nat.zero_add] at hval
    rw [hval]

theorem set_supercat_error_conditions_witness :
    set_supercat exampleConfig
        [{ dir := some "/d", run_ga := some "r_g0" }] false false none []
      = .error .missingDest
    ∧ ((∃ cfg2, set_supercat exampleConfig
          [{ dir := none, run_ga := some "r_g0" }] false false (some "/out") []
            = .ok cfg2) ↔
        ∀ r ∈ [({ dir := none, run_ga := some "r_g0" } : RunEntry)],
          r.dir ≠ none ∧ r.run_ga ≠ none)
    ∧ (∃ r, [({ dir := some "/d", run_ga := some "a" } : RunEntry),
             { dir := some "/e", run_ga := none }].get? 1 = some r
        ∧ (r.dir = none ∨ r.run_ga = none))
    ∧ set_supercat exampleConfig
        [{ dir := some "/d", run_ga := some "a" }, { dir := some "/e", run_ga := none }]
        false false (some "/out") []
      = .error (.missingKeys 1) :=
  ⟨set_supercat_error_conditions.2.1 exampleConfig
      { dir := some "/d", run_ga := some "r_g0" } [] false false none [] rfl,
   set_supercat_error_conditions.2.2.1 exampleConfig
      [{ dir := none, run_ga := some "r_g0" }] false false "/out" []
      (by decide) (by decide),
   (set_supercat_error_conditions.2.2.2.1 exampleConfig
      [{ dir := some "/d", run_ga := some "a" }, { dir := some "/e", run_ga := none }]
      false false (some "/out") [] 1 (by rfl)).1,
   set_supercat_error_conditions.2.2.2.2 exampleConfig
      [{ dir := some "/d", run_ga := some "a" }, { dir := some "/e", run_ga := none }]
      false false (some "/out") [] 1 { dir := some "/e", run_ga := none }
      (by decide) rfl (Or.inr rfl)
      (by
        intro j hj
        have hj0 : j = 0 := by omega
        rw [hj0]
        exact ⟨{ dir := some "/d", run_ga := some "a" }, rfl, by decide, by decide⟩)⟩

theorem data_asString (l : List Char) : l.asString.data = l :=
  List.toList_asString l

theorem dropWhile_head_false (p : Char → Bool) :
    ∀ (l : List Char) (x : Char) (t : List Char),
      l.dropWhile p = x :: t → p x = false := by
  intro l
  induction l with
  | nil => intro x t h; exact absurd h (by simp)
  | cons c cs ih =>
    intro x t h
    rw [List.dropWhile_cons] at h
    by_cases hp : p c = true
    · rw [if_pos hp] at h
      exact ih x t h
    · rw [if_neg hp] at h
      cases h
      exact Bool.eq_false_iff.mpr hp

theorem takeWhile_middle (p : Char → Bool) :
    ∀ (d : List Char) (x : Char) (t : List Char),
      (∀ c ∈ d, p c = true) → p x = false →
      (d ++ x :: t).takeWhile p = d ∧ (d ++ x :: t).dropWhile p = x :: t := by
  intro d
  induction d with
  | nil =>
    intro x t _ hx
    constructor
    · simp [List.takeWhile_cons, hx]
    · simp [List.dropWhile_cons, hx]
  | cons c d ih =>
    intro x t hall hx
    have hc : p c = true := hall c (by simp)
    have hrest := ih x t (fun c2 hc2 => hall c2 (by simp [hc2])) hx
    constructor
    · simp [List.takeWhile_cons, hc, hrest.1]
    · simp [List.dropWhile_cons, hc, hrest.2]

theorem tryMatchAt_sound (cs : List Char) (ds gs : String)
    (h : tryMatchAt cs = some (ds, gs)) :
    ds.data ≠ [] ∧ gs.data ≠ [] ∧ (∀ c ∈ ds.data, c ≠ ',') ∧
      (∀ c ∈ gs.data, c ≠ '\x7d') ∧
      (patChars ++ ds.data ++ [','] ++ gs.data ++ ['\x7d']) <+: cs := by
  rw [tryMatchAt] at h
  split at h
  case isFalse => exact absurd h (by simp)
  case isTrue hp =>
    split at h
    case isTrue => exact absurd h (by simp)
    case isFalse hd =>
      split at h
      case h_1 => exact absurd h (by simp)
      case h_2 x rest3 heq1 =>
        split at h
        case isTrue => exact absurd h (by simp)
        case isFalse hg =>
          split at h
          case h_1 => exact absurd h (by simp)
          case h_2 y ys heq2 =>
            have hpair := Option.some.inj h
            have hds : ds = ((cs.drop patChars.length).takeWhile
                (fun c => c != ',')).asString := (congrArg Prod.fst hpair).symm
            have hgs : gs = (rest3.takeWhile (fun c => c != '\x7d')).asString :=
              (congrArg Prod.snd hpair).symm
            have hdsd : ds.data = (cs.drop patChars.length).takeWhile
                (fun c => c != ',') := by rw [hds]; exact data_asString _
            have hgsd : gs.data = rest3.takeWhile (fun c => c != '\x7d') := by
              rw [hgs]; exact data_asString _
            obtain ⟨tl, htl⟩ := isPrefixOf_true_iff.mp hp
            have hcs : cs = patChars ++ cs.drop patChars.length := by
              conv in cs.drop _ =>
                rw [← htl]
              rw [List.drop_left, htl]
            have hxc : x = ',' := by
              have hf := dropWhile_head_false _ _ _ _ heq1
              simpa using hf
            have hyc : y = '\x7d' := by
              have hf := dropWhile_head_false _ _ _ _ heq2
              simpa using hf
            have hsplit1 : (cs.drop patChars.length).takeWhile (fun c => c != ',')
                ++ (x :: rest3) = cs.drop patChars.length := by
              rw [← heq1, List.takeWhile_append_dropWhile]
            have hsplit2 : rest3.takeWhile (fun c => c != '\x7d') ++ (y :: ys)
                = rest3 := by
              rw [← heq2, List.takeWhile_append_dropWhile]
            refine ⟨?_, ?_, ?_, ?_, ?_⟩
            · rw [hdsd]
              intro hnil
              rw [hnil] at hd
              exact hd rfl
            · rw [hgsd]
              intro hnil
              rw [hnil] at hg
              exact hg rfl
            · intro c hc
              rw [hdsd] at hc
              have := List.mem_takeWhile_imp hc
              simpa using this
            · intro c hc
              rw [hgsd] at hc
              have := List.mem_takeWhile_imp hc
              simpa using this
            · refine ⟨ys, ?_⟩
              conv_rhs => rw [hcs, ← hsplit1, ← hsplit2]
              rw [hdsd, hgsd, hxc, hyc]
              simp [List.append_assoc]

theorem tryMatchAt_complete (d g suf : List Char) (hd : d ≠ []) (hg : g ≠ [])
    (hdc : ∀ c ∈ d, c ≠ ',') (hgc : ∀ c ∈ g, c ≠ '\x7d') :
    tryMatchAt (patChars ++ d ++ [','] ++ g ++ ['\x7d'] ++ suf)
      = some (d.asString, g.asString) := by
  have hp : patChars.isPrefixOf (patChars ++ d ++ [','] ++ g ++ ['\x7d'] ++ suf)
      = true := by
    rw [isPrefixOf_true_iff]
    exact ⟨d ++ [','] ++ g ++ ['\x7d'] ++ suf, by simp [List.append_assoc]⟩
  have hR : (patChars ++ d ++ [','] ++ g ++ ['\x7d'] ++ suf).drop patChars.length
      = d ++ ',' :: (g ++ '\x7d' :: suf) := by
    have hre : patChars ++ d ++ [','] ++ g ++ ['\x7d'] ++ suf
        = patChars ++ (d ++ ',' :: (g ++ '\x7d' :: suf)) := by
      simp [List.append_assoc]
    rw [hre, List.drop_left]
  have ht1 := takeWhile_middle (fun c => c != ',') d ',' (g ++ '\x7d' :: suf)
    (fun c hc => by simpa using hdc c hc) (by simp)
  have ht2 := takeWhile_middle (fun c => c != '\x7d') g '\x7d' suf
    (fun c hc => by simpa using hgc c hc) (by simp)
  rw [tryMatchAt, if_pos hp, hR, ht1.1, ht1.2]
  have hde : d.isEmpty = false := by
    cases d with
    | nil => exact absurd rfl hd
    | cons a b => rfl
  rw [hde]
  simp only [Bool.false_eq_true, if_false]
  rw [ht2.1, ht2.2]
  have hge : g.isEmpty = false := by
    cases g with
    | nil => exact absurd rfl hg
    | cons a b => rfl
  rw [hge]
  simp only [Bool.false_eq_true, if_false]

theorem searchSupercat_sound :
    ∀ (cs : List Char) (ds gs : String), searchSupercat cs = some (ds, gs) →
      SpecMatch cs ds.data gs.data := by
  intro cs
  induction cs with
  | nil => intro ds gs h; exact absurd h (by simp [searchSupercat])
  | cons c rest ih =>
    intro ds gs h
    rw [searchSupercat] at h
    rcases htry : tryMatchAt (c :: rest) with _ | r
    · rw [htry] at h
      obtain ⟨h1, h2, h3, h4, hinf⟩ := ih ds gs h
      exact ⟨h1, h2, h3, h4, List.infix_cons hinf⟩
    · rw [htry] at h
      have hr : r = (ds, gs) := Option.some.inj h
      rw [hr] at htry
      obtain ⟨h1, h2, h3, h4, hpre⟩ := tryMatchAt_sound (c :: rest) ds gs htry
      obtain ⟨tl, htl⟩ := hpre
      exact ⟨h1, h2, h3, h4, ⟨[], tl, by simpa using htl⟩⟩

theorem searchSupercat_complete :
    ∀ cs : List Char, MatchExists cs → searchSupercat cs ≠ none := by
  intro cs
  induction cs with
  | nil =>
    rintro ⟨d, g, hd, hg, hdc, hgc, hinf⟩ _
    obtain ⟨s, t, hst⟩ := hinf
    simp [patChars] at hst
  | cons c rest ih =>
    rintro ⟨d, g, hd, hg, hdc, hgc, hinf⟩ hnone
    rw [searchSupercat] at hnone
    rcases htry : tryMatchAt (c :: rest) with _ | r
    · rw [htry] at hnone
      rcases List.infix_cons_iff.mp hinf with hpre | hinf2
      · obtain ⟨suf, hsuf⟩ := hpre
        have hcomp := tryMatchAt_complete d g suf hd hg hdc hgc
        rw [hsuf] at hcomp
        rw [htry] at hcomp
        exact absurd hcomp (by simp)
      · exact ih ⟨d, g, hd, hg, hdc, hgc, hinf2⟩ hnone
    · rw [htry] at hnone
      exact absurd hnone (by simp)

/-- C5: the sidecar decoder finds, anywhere in the text, an occurrence
of `supercat_element=\x7bdirectory,run\x7d` with a comma-free directory
and a closing-brace-free run identifier and returns the captured fields
verbatim (the returned fields always witness such an occurrence); when
no such occurrence exists it raises the parse error naming the source,
when the backing file does not exist it raises the not-found error; and
on the text `supercat_element=\x7b/a/b,run_g0\x7d` it returns
directory `/a/b` with run identifier `run_g0`. -/
theorem parse_fyi_spec :
    (∀ (fs : FileSystem) (p : String), lookupFile fs p = none →
      parse_fyi_supercat_element fs p = .error (.notFound p))
    ∧ (∀ (fs : FileSystem) (p content : String),
      lookupFile fs p = some content → ¬ MatchExists content.data →
      parse_fyi_supercat_element fs p = .error (.noMatch p))
    ∧ (∀ (fs : FileSystem) (p content ds gs : String),
      lookupFile fs p = some content →
      parse_fyi_supercat_element fs p = .ok { dir := ds, run_ga := gs } →
      SpecMatch content.data ds.data gs.data)
    ∧ parse_fyi_supercat_element
        [("f", "supercat_element=\x7b/a/b,run_g0\x7d")] "f"
      = .ok { dir := "/a/b", run_ga := "run_g0" } := by
  refine ⟨?_, ?_, ?_, ?_⟩
  · intro fs p hlk
    rw [parse_fyi_supercat_element, hlk]
  · intro fs p content hlk hnm
    rw [parse_fyi_supercat_element, hlk]
    dsimp only
    rcases hs : searchSupercat content.data with _ | dg
    · rfl
    · exfalso
      apply hnm
      rcases dg with ⟨ds, gs⟩
      exact ⟨ds.data, gs.data, searchSupercat_sound content.data ds gs hs⟩
  · intro fs p content ds gs hlk hok
    rw [parse_fyi_supercat_element, hlk] at hok
    dsimp only at hok
    rcases hs : searchSupercat content.data with _ | dg
    · rw [hs] at hok
      exact absurd hok (by simp)
    · rw [hs] at hok
      rcases dg with ⟨ds2, gs2⟩
      simp only [Except.ok.injEq, RunDescriptor.mk.injEq] at hok
      obtain ⟨rfl, rfl⟩ := hok
      exact searchSupercat_sound content.data ds2 gs2 hs
  · rfl

theorem parse_fyi_spec_witness :
    parse_fyi_supercat_element [] "f" = .error (.notFound "f")
    ∧ parse_fyi_supercat_element [("f", "nothing here")] "f" = .error (.noMatch "f")
    ∧ SpecMatch "supercat_element=\x7b/a/b,run_g0\x7d".data "/a/b".data "run_g0".data :=
  ⟨parse_fyi_spec.1 [] "f" rfl,
   parse_fyi_spec.2.1 [("f", "nothing here")] "f" "nothing here" rfl
     (fun hm => searchSupercat_complete _ hm (by rfl)),
   parse_fyi_spec.2.2.1 [("f", "supercat_element=\x7b/a/b,run_g0\x7d")] "f"
     "supercat_element=\x7b/a/b,run_g0\x7d" "/a/b" "run_g0" rfl (by rfl)⟩

end Purrito
